import Mathlib

/-!
Verification of the hybrid search & ranking engine of a static content
directory.  The source is client-side JavaScript; the modules embedded here
are the Query Parser (`QueryParser.parse`, `matchesFilters`, `applyFilters`),
the Asset Cache (`SearchCache`), and the Vector Matcher (`VectorSearch`).

Modelling conventions:
* JavaScript strings are `List Char` (`JStr`); only the ASCII behaviour of
  `toLowerCase` is modelled (the corpus is ASCII), whitespace is the usual
  space/tab/newline/carriage-return set matched by `\s`.
* The `while (re.exec(...))`-with-`replace` loops of the parser are embedded
  as fuel-indexed structural recursions.  The fuel passed by `parse`
  (`length + 1`) always suffices: each iteration either advances the regex
  `lastIndex` by the match length (≥ 2) or strictly shrinks the working
  string, so the number of iterations is bounded by the string length.
* Numbers appearing in embeddings are modelled as exact rationals `ℚ`;
  `Math.sqrt`, which exact rationals cannot express, is an explicit function
  parameter `sqrt : ℚ → ℚ` threaded through `VectorSearch`.
* The IndexedDB store is a key-value association list; the pair of embeddings
  entries read by `SearchCache.getEmbeddings` is modelled positionally as the
  two-field record `EmbStore`.
-/

/-- JavaScript string, modelled as a list of characters. -/
abbrev JStr := List Char

/-- Coerce a Lean string literal to the `JStr` model. -/
def str (s : String) : JStr := s.toList

/-- JavaScript `\s` (whitespace) character class, restricted to the common
ASCII whitespace characters. -/
def jsIsWs (c : Char) : Bool :=
  c == ' ' || c == '\t' || c == '\n' || c == '\r'

/-- JavaScript `\w` (word) character class: `[A-Za-z0-9_]`. -/
def jsIsWord (c : Char) : Bool :=
  c.isAlpha || c.isDigit || c == '_'

/-- The uppercase ASCII letters. -/
def ucChars : List Char := "ABCDEFGHIJKLMNOPQRSTUVWXYZ".toList

/-- The lowercase ASCII letters. -/
def lcChars : List Char := "abcdefghijklmnopqrstuvwxyz".toList

/-- ASCII `toLowerCase`, per character: add 32 to the code point of an
uppercase letter, identity otherwise (matching JavaScript and `Char.toLower`
on ASCII input). -/
def jsLowerChar (c : Char) : Char :=
  if c ∈ ucChars then Char.ofNat (c.toNat + 32) else c

/-- JavaScript `String.prototype.toLowerCase` on ASCII strings. -/
def jsToLower (s : JStr) : JStr := s.map jsLowerChar

/-- JavaScript `String.prototype.trim`. -/
def jsTrim (s : JStr) : JStr :=
  ((s.dropWhile jsIsWs).reverse.dropWhile jsIsWs).reverse

/-- Auxiliary accumulator recursion for whitespace splitting; `cur` holds the
current token reversed. -/
def splitWsAux : JStr → JStr → List JStr
  | [], cur => if cur = [] then [] else [cur.reverse]
  | c :: rest, cur =>
    if jsIsWs c then
      if cur = [] then splitWsAux rest [] else cur.reverse :: splitWsAux rest []
    else
      splitWsAux rest (c :: cur)

/-- JavaScript `s.trim().split(/\s+/).filter(t => t.length > 0)`: the
whitespace-delimited tokens of `s`. -/
def splitWs (s : JStr) : List JStr := splitWsAux s []

/-- JavaScript `Array.prototype.join(' ')` (also used to build `cleanQuery`
and the searchable-text concatenation). -/
def joinSp : List JStr → JStr
  | [] => []
  | [t] => t
  | t :: ts => t ++ ' ' :: joinSp ts

/-- JavaScript `s.replace(pat, rep)` with a string pattern: replace the first
occurrence of `pat` in `s` (identity when `pat` does not occur). -/
def replaceFirst : JStr → JStr → JStr → JStr
  | [], pat, rep => if pat = [] then rep else []
  | c :: rest, pat, rep =>
    if pat.isPrefixOf (c :: rest) then rep ++ (c :: rest).drop pat.length
    else c :: replaceFirst rest pat rep

/-- JavaScript `hay.indexOf(pat) !== -1`: substring containment. -/
def jsIncludes : JStr → JStr → Bool
  | hay, pat =>
    pat.isPrefixOf hay ||
      match hay with
      | [] => false
      | _ :: t => jsIncludes t pat

/-- Decimal rendering of a natural number, as JavaScript `String(n)`. -/
def natStr (n : Nat) : JStr := (Nat.repr n).toList

/-- Generic left-to-right regex scan: try the single-position matcher `f` at
`i`, `i+1`, … for at most `fuel` positions, returning the first (leftmost)
match.  This is how a JavaScript global regex advances through a subject
string. -/
def scanFrom {β : Type} (f : Nat → Option β) : Nat → Nat → Option β
  | 0, _ => none
  | fuel + 1, i =>
    match f i with
    | some m => some m
    | none => scanFrom f fuel (i + 1)

example : splitWs (str "  a  bc ") = [str "a", str "bc"] := by decide
example : replaceFirst (str "co-op") (str "-op") (str " ") = str "co " := by decide
example : jsIncludes (str "xxabcz") (str "abc") = true := by decide
example : jsIncludes (str "xxabcz") (str "abd") = false := by decide
example : jsTrim (str "  a b  ") = str "a b" := by decide
example : joinSp [str "a", str "bc"] = str "a bc" := by decide
example : jsToLower (str "AbC:") = str "abc:" := by decide

/-! ### Query Parser (`query-parser.js`) -/

/-- The four normalized filter field names produced by `normalizeFieldName`. -/
inductive FieldName where
  | author
  | year
  | topic
  | type_
deriving DecidableEq

/-- `normalizeFieldName`: the fixed alias table; `none` models the JavaScript
`null` returned for unrecognized field prefixes. -/
def normalizeFieldName (field : JStr) : Option FieldName :=
  if field = str "author" ∨ field = str "authors" ∨ field = str "by" ∨
      field = str "writer" then some .author
  else if field = str "year" ∨ field = str "date" ∨ field = str "published" ∨
      field = str "yr" then some .year
  else if field = str "topic" ∨ field = str "area" ∨ field = str "field" ∨
      field = str "domain" then some .topic
  else if field = str "type" ∨ field = str "kind" ∨ field = str "category"
      then some .type_
  else none

/-- A match of the phrase regex `(-?)"([^"]+)"`: `negated` is whether group 1
matched `-`, `inner` is group 2, `matchedText` is the whole match (`match[0]`)
and `endPos` the index just past it (the new `lastIndex`). -/
structure PhraseMatch where
  negated : Bool
  inner : JStr
  matchedText : JStr
  endPos : Nat

/-- Attempt the phrase regex `(-?)"([^"]+)"` at position `p` of `s`.  The
group `(-?)` prefers consuming `-`; `[^"]+` greedily takes the characters up
to the next quote and must be nonempty. -/
def tryPhraseAt (s : JStr) (p : Nat) : Option PhraseMatch :=
  match s.drop p with
  | '-' :: '"' :: rest =>
    let inner := rest.takeWhile (fun c => c ≠ '"')
    if inner ≠ [] ∧ inner.length < rest.length then
      some ⟨true, inner, '-' :: '"' :: (inner ++ ['"']), p + inner.length + 3⟩
    else none
  | '"' :: rest =>
    let inner := rest.takeWhile (fun c => c ≠ '"')
    if inner ≠ [] ∧ inner.length < rest.length then
      some ⟨false, inner, '"' :: (inner ++ ['"']), p + inner.length + 2⟩
    else none
  | _ => none

/-- `phraseRegex.exec(query)` with `lastIndex = i`: leftmost phrase match at
position `≥ i`. -/
def findPhrase (s : JStr) (i : Nat) : Option PhraseMatch :=
  scanFrom (tryPhraseAt s) (s.length + 1 - i) i

/-- A match of the field regex `(\w+):(\S+)`. -/
structure FieldMatch where
  field : JStr
  value : JStr
  matchedText : JStr
  endPos : Nat

/-- Attempt the field regex `(\w+):(\S+)` at position `p` of `s`: a maximal
nonempty run of word characters, a colon, then a maximal nonempty run of
non-whitespace characters. -/
def tryFieldAt (s : JStr) (p : Nat) : Option FieldMatch :=
  let t := s.drop p
  let w := t.takeWhile jsIsWord
  if w = [] then none
  else
    match t.drop w.length with
    | ':' :: rest =>
      let v := rest.takeWhile (fun c => jsIsWs c = false)
      if v = [] then none
      else some ⟨w, v, w ++ ':' :: v, p + w.length + 1 + v.length⟩
    | _ => none

/-- `fieldRegex.exec(remaining)` with `lastIndex = i`. -/
def findField (s : JStr) (i : Nat) : Option FieldMatch :=
  scanFrom (tryFieldAt s) (s.length + 1 - i) i

/-- A match of the negation regex `-(\w+)`. -/
structure NegMatch where
  word : JStr
  matchedText : JStr
  endPos : Nat

/-- Attempt the negation regex `-(\w+)` at position `p` of `s`. -/
def tryNegAt (s : JStr) (p : Nat) : Option NegMatch :=
  match s.drop p with
  | '-' :: rest =>
    let w := rest.takeWhile jsIsWord
    if w = [] then none else some ⟨w, '-' :: w, p + 1 + w.length⟩
  | _ => none

/-- `negationRegex.exec(remaining)` with `lastIndex = i`. -/
def findNeg (s : JStr) (i : Nat) : Option NegMatch :=
  scanFrom (tryNegAt s) (s.length + 1 - i) i

/-- `addField`: the JavaScript object update
`if (!fields[f]) fields[f] = []; fields[f].push(v)` on an association list
keyed by normalized field name (insertion ordered, keys unique). -/
def addField (fs : List (FieldName × List JStr)) (f : FieldName) (v : JStr) :
    List (FieldName × List JStr) :=
  match fs with
  | [] => [(f, [v])]
  | (g, vs) :: rest =>
    if g = f then (g, vs ++ [v]) :: rest else (g, vs) :: addField rest f v

/-- Step 1 of `QueryParser.parse`: the `while (phraseRegex.exec(query))` loop.
The regex runs over the fixed string `query` (so only `lastIndex` persists),
while each match is blanked out of `remaining` by a first-occurrence
`replace`. -/
def phraseLoop (query : JStr) :
    Nat → Nat → JStr → List JStr → List JStr → JStr × List JStr × List JStr
  | 0, _, remaining, phrases, negPhrases => (remaining, phrases, negPhrases)
  | fuel + 1, lastIndex, remaining, phrases, negPhrases =>
    match findPhrase query lastIndex with
    | none => (remaining, phrases, negPhrases)
    | some m =>
      let ph := jsTrim m.inner
      let phrases' :=
        if ph ≠ [] ∧ m.negated = false then phrases ++ [jsToLower ph] else phrases
      let negPhrases' :=
        if ph ≠ [] ∧ m.negated = true then negPhrases ++ [jsToLower ph]
        else negPhrases
      phraseLoop query fuel m.endPos (replaceFirst remaining m.matchedText [' '])
        phrases' negPhrases'

/-- Step 2 of `QueryParser.parse`: the `while (fieldRegex.exec(remaining))`
loop.  Here the regex subject is the *mutating* string `remaining`, with
`lastIndex` persisting across iterations; every match is blanked out of
`remaining`, whether or not its field prefix is recognized. -/
def fieldLoop :
    Nat → Nat → JStr → List (FieldName × List JStr) →
      JStr × List (FieldName × List JStr)
  | 0, _, remaining, fields => (remaining, fields)
  | fuel + 1, lastIndex, remaining, fields =>
    match findField remaining lastIndex with
    | none => (remaining, fields)
    | some m =>
      let fields' :=
        match normalizeFieldName (jsToLower m.field) with
        | some nf => if m.value ≠ [] then addField fields nf m.value else fields
        | none => fields
      fieldLoop fuel m.endPos (replaceFirst remaining m.matchedText [' ']) fields'

/-- Step 3 of `QueryParser.parse`: the `while (negationRegex.exec(remaining))`
loop; single-character negated terms are ignored but still blanked out. -/
def negLoop : Nat → Nat → JStr → List JStr → JStr × List JStr
  | 0, _, remaining, negTerms => (remaining, negTerms)
  | fuel + 1, lastIndex, remaining, negTerms =>
    match findNeg remaining lastIndex with
    | none => (remaining, negTerms)
    | some m =>
      let t := jsToLower m.word
      let negTerms' := if 1 < t.length then negTerms ++ [t] else negTerms
      negLoop fuel m.endPos (replaceFirst remaining m.matchedText [' ']) negTerms'

/-- `ParsedQuery`: the structured result of `QueryParser.parse`. -/
structure ParsedQuery where
  phrases : List JStr
  fields : List (FieldName × List JStr)
  negTerms : List JStr
  negPhrases : List JStr
  terms : List JStr
  cleanQuery : JStr
deriving DecidableEq

/-- The all-empty `ParsedQuery` returned for empty input. -/
def emptyParsedQuery : ParsedQuery := ⟨[], [], [], [], [], []⟩

/-- The body of `QueryParser.parse` after the empty-input guard, applied to
the trimmed query: phrase extraction, field-filter extraction, negated-term
extraction, the residual free terms, and `cleanQuery = terms ++ phrases`. -/
def parseBody (query : JStr) : ParsedQuery :=
  let pl := phraseLoop query (query.length + 1) 0 query [] []
  let fl := fieldLoop (pl.1.length + 1) 0 pl.1 []
  let nl := negLoop (fl.1.length + 1) 0 fl.1 []
  let terms := (splitWs nl.1).map jsToLower
  ⟨pl.2.1, fl.2, nl.2, pl.2.2, terms, joinSp (terms ++ pl.2.1)⟩

/-- `QueryParser.parse`. -/
def QueryParser.parse (rawQuery : JStr) : ParsedQuery :=
  if rawQuery = [] then emptyParsedQuery else parseBody (jsTrim rawQuery)

example : QueryParser.parse (str "\"Exact Phrase\" author:Smith -dead causal") =
    ⟨[str "exact phrase"], [(.author, [str "Smith"])], [str "dead"], [],
      [str "causal"], str "causal exact phrase"⟩ := by decide
example : QueryParser.parse (str "foo:bar") = emptyParsedQuery := by decide
example : QueryParser.parse (str "author:a author:b") =
    ⟨[], [(.author, [str "a"])], [], [], [str "author:b"], str "author:b"⟩ := by
  decide
example : QueryParser.parse (str "  ") = emptyParsedQuery := by decide
example : QueryParser.parse (str "-\"bad stuff\" x -a co-op") =
    ⟨[], [], [str "op"], [str "bad stuff"], [str "x", str "co"],
      str "x co"⟩ := by decide

/-- A search-result document as consumed by `matchesFilters`: the searchable
text fields are strings (an absent JavaScript field and `''` both behave as
the empty string under `|| ''`), `year` is an optional number. -/
structure Doc where
  name : JStr
  description : JStr
  tags : JStr
  authors : JStr
  year : Option Nat
  topic : JStr
  category : JStr
  type_ : JStr
deriving DecidableEq

/-- The concatenation `[name, description, tags, authors].join(' ')` used for
phrase and negation checks. -/
def Doc.searchText (d : Doc) : JStr :=
  joinSp [d.name, d.description, d.tags, d.authors]

/-- One field-filter check of `matchesFilters` (the body of the
`for (field in parsedQuery.fields)` loop): OR across the values of the field,
with the per-field source text and comparison used by the code. -/
def checkField (d : Doc) : FieldName → List JStr → Bool
  | .author, values =>
    let authors := jsToLower (if d.authors ≠ [] then d.authors else d.tags)
    values.any (fun v => jsIncludes authors (jsToLower v))
  | .year, values =>
    match d.year with
    | none => false
    | some y => if y = 0 then false else values.any (fun v => natStr y == v)
  | .topic, values =>
    let topic := jsToLower (if d.topic ≠ [] then d.topic else d.category)
    values.any (fun v => jsIncludes topic (jsToLower v))
  | .type_, values =>
    values.any (fun v => d.type_ == jsToLower v)

/-- `QueryParser.matchesFilters`: field filters AND across fields, then every
positive phrase must occur in the lowercased searchable text, then no negated
term or phrase may occur there.  The sequential early-`return false`s of the
source are the `&&` chain. -/
def QueryParser.matchesFilters (d : Doc) (p : ParsedQuery) : Bool :=
  p.fields.all (fun fv => checkField d fv.1 fv.2) &&
  p.phrases.all (fun ph => jsIncludes (jsToLower d.searchText) ph) &&
  p.negTerms.all (fun t => !jsIncludes (jsToLower d.searchText) t) &&
  p.negPhrases.all (fun ph => !jsIncludes (jsToLower d.searchText) ph)

/-- `QueryParser.applyFilters`: returns the input list itself when the parsed
query carries no phrases, field filters, or negations, else filters by
`matchesFilters`. -/
def QueryParser.applyFilters (results : List Doc) (p : ParsedQuery) : List Doc :=
  if p.phrases = [] ∧ p.fields = [] ∧ p.negTerms = [] ∧ p.negPhrases = [] then
    results
  else
    results.filter (fun r => QueryParser.matchesFilters r p)

/-! ### Asset Cache (`search-cache.js`) -/

/-- `CACHE_VERSION` at the revision under verification. -/
def SearchCache.CACHE_VERSION : Int := 3

/-- `CACHE_TTL`: seven days in milliseconds. -/
def SearchCache.CACHE_TTL : Int := 7 * 24 * 60 * 60 * 1000

/-- The `{value, version, timestamp}` wrapper written by `wrapWithMeta`;
`version`/`timestamp` are optional so that foreign or damaged entries (absent
fields) are representable. -/
structure CacheWrapper (α : Type) where
  value : α
  version : Option Int
  timestamp : Option Int
deriving DecidableEq

/-- `SearchCache.isExpired`: a missing or zero timestamp is expired, else the
age must not exceed `CACHE_TTL`; `now` models `Date.now()`. -/
def SearchCache.isExpired {α : Type} (now : Int) (w : CacheWrapper α) : Bool :=
  match w.timestamp with
  | none => true
  | some ts => ts == 0 || decide (now - ts > SearchCache.CACHE_TTL)

/-- `SearchCache.isValidVersion`: the stored version must be a number equal to
the current expected version (`current` models the compile-time constant
`CACHE_VERSION`, kept as a parameter so that version bumps are statable). -/
def SearchCache.isValidVersion {α : Type} (current : Int) (w : CacheWrapper α) :
    Bool :=
  match w.version with
  | none => false
  | some v => v == current

/-- `SearchCache.wrapWithMeta`. -/
def SearchCache.wrapWithMeta {α : Type} (current now : Int) (value : α) :
    CacheWrapper α :=
  ⟨value, some current, some now⟩

/-- The IndexedDB object store under the `cache` name: an insertion-ordered
association list of key/value pairs (one value type per instantiation). -/
def SearchCache.Store (V : Type) : Type := List (JStr × V)

/-- `SearchCache.get key`: the raw stored value, without any validity check. -/
def SearchCache.get {V : Type} (st : SearchCache.Store V) (k : JStr) : Option V :=
  match st with
  | [] => none
  | (k', v) :: rest => if k' == k then some v else SearchCache.get rest k

/-- `SearchCache.set key value`: `store.put(value, key)`, last-writer-wins. -/
def SearchCache.set {V : Type} (st : SearchCache.Store V) (k : JStr) (v : V) :
    SearchCache.Store V :=
  match st with
  | [] => [(k, v)]
  | (k', v') :: rest =>
    if k' == k then (k', v) :: rest else (k', v') :: SearchCache.set rest k v

/-- `SearchCache.delete key`. -/
def SearchCache.del {V : Type} (st : SearchCache.Store V) (k : JStr) :
    SearchCache.Store V :=
  match st with
  | [] => []
  | (k', v') :: rest =>
    if k' == k then rest else (k', v') :: SearchCache.del rest k

/-- `SearchCache.KEYS.SEARCH_INDEX`. -/
def SearchCache.KEYS.SEARCH_INDEX : JStr := str "search-index-v1"

/-- `SearchCache.getSearchIndex`: a raw `get`, with no wrapper, version, TTL,
or hash validation. -/
def SearchCache.getSearchIndex {V : Type} (st : SearchCache.Store V) : Option V :=
  SearchCache.get st SearchCache.KEYS.SEARCH_INDEX

/-- `SearchCache.setSearchIndex`: a raw `set` of the index value, not wrapped
with metadata. -/
def SearchCache.setSearchIndex {V : Type} (st : SearchCache.Store V) (idx : V) :
    SearchCache.Store V :=
  SearchCache.set st SearchCache.KEYS.SEARCH_INDEX idx

/-- The metadata object cached next to the embeddings buffer; only its
`contentHash` field is inspected by `getEmbeddings` (`none` models an absent
hash). -/
structure EmbMetadata where
  contentHash : Option JStr
deriving DecidableEq

/-- The `{buffer, quantized}` object cached under the embeddings key; the
buffer is abstract (an identifier), `none` models an absent/null buffer, and
`quantized` may be absent. -/
structure EmbValue where
  buffer : Option Nat
  quantized : Option Bool
deriving DecidableEq

/-- The slice of the cache store read and written by
`getEmbeddings`/`setEmbeddings`: the entries under `KEYS.EMBEDDINGS_METADATA`
and `KEYS.EMBEDDINGS`, modelled positionally; the wrapped embeddings value is
optional because the code guards against a falsy `wrapper.value`. -/
structure EmbStore where
  metaEntry : Option (CacheWrapper EmbMetadata)
  embEntry : Option (CacheWrapper (Option EmbValue))
deriving DecidableEq

/-- The record returned by a successful `getEmbeddings`. -/
structure EmbResult where
  metadata : EmbMetadata
  embeddings : Nat
  quantized : Bool
deriving DecidableEq

/-- The test `if (contentHash && metadata.contentHash !== contentHash)`:
`contentHash` must be a truthy (nonempty) supplied string that differs from
the stored one. -/
def SearchCache.hashMismatch (contentHash : Option JStr) (md : EmbMetadata) :
    Bool :=
  match contentHash with
  | none => false
  | some h => !(h == []) && !(md.contentHash == some h)

/-- `SearchCache.getEmbeddings(contentHash)`: read both entries; a version or
TTL failure (checked on the metadata wrapper) deletes both entries and
misses; a content-hash mismatch or a missing buffer misses without deleting;
otherwise the stored metadata, buffer and quantization flag are returned.
Returns the result together with the store after any deletions. -/
def SearchCache.getEmbeddings (current now : Int) (st : EmbStore)
    (contentHash : Option JStr) : Option EmbResult × EmbStore :=
  match st.metaEntry, st.embEntry with
  | some mw, some ew =>
    if !SearchCache.isValidVersion current mw || SearchCache.isExpired now mw then
      (none, ⟨none, none⟩)
    else if SearchCache.hashMismatch contentHash mw.value then
      (none, st)
    else
      match ew.value with
      | some ev =>
        match ev.buffer with
        | some buf => (some ⟨mw.value, buf, ev.quantized.getD false⟩, st)
        | none => (none, st)
      | none => (none, st)
  | _, _ => (none, st)

/-- `SearchCache.setEmbeddings`: write both entries, wrapped with metadata. -/
def SearchCache.setEmbeddings (current now : Int) (metadata : EmbMetadata)
    (buf : Nat) (quantized : Bool) : EmbStore :=
  ⟨some (SearchCache.wrapWithMeta current now metadata),
    some (SearchCache.wrapWithMeta current now (some ⟨some buf, some quantized⟩))⟩

/-! ### Vector Matcher (`vector-search.js`)

Embedding coordinates and scores are exact rationals; `Math.sqrt` is the
explicit parameter `sqrt`.  The module state `{embeddings, isLoaded}` is the
record `VS`; a never-loaded `embeddings = null` is modelled as the empty list,
which is output-equivalent in every embedded function (the JavaScript guards
`!this.embeddings` and the empty array produce the same results on these
paths). -/

/-- One element of the loaded `data.items` array. -/
structure EmbItem where
  id : JStr
  type_ : JStr
  name : JStr
  description : JStr
  category : JStr
  url : JStr
  embedding : List ℚ
deriving DecidableEq

/-- The `VectorSearch` module state. -/
structure VS where
  embeddings : List EmbItem
  isLoaded : Bool
deriving DecidableEq

/-- One result of `fuseInstance.search(query)`: only the fields read by
`VectorSearch` (`result.item.name`) plus the Fuse score are modelled. -/
structure FuseRes where
  itemName : JStr
  score : ℚ
deriving DecidableEq

/-- An external Fuse.js instance, abstractly: its `search` method. -/
def Fuse : Type := JStr → List FuseRes

/-- `VectorSearch.cosineSimilarity`: dot product over the common prefix
(`Math.min(a.length, b.length)`); embeddings are pre-normalized so this is
cosine similarity. -/
def VectorSearch.cosineSimilarity (a b : List ℚ) : ℚ :=
  (a.zip b).foldl (fun acc p => acc + p.1 * p.2) 0

/-- A scored corpus item produced by `searchByEmbedding`. -/
structure Scored where
  item : EmbItem
  score : ℚ
deriving DecidableEq

/-- `VectorSearch.searchByEmbedding(queryEmbedding, topK)`: score every item
by cosine similarity, sort descending (JavaScript `Array.prototype.sort` is
stable, as is `List.mergeSort`), return the first `topK`; `topK || 20`
replaces a zero/absent `topK` by 20. -/
def VectorSearch.searchByEmbedding (vs : VS) (queryEmbedding : List ℚ)
    (topK : Nat) : List Scored :=
  if vs.isLoaded = false then []
  else
    let k := if topK = 0 then 20 else topK
    let scored := vs.embeddings.map
      (fun it => Scored.mk it (VectorSearch.cosineSimilarity queryEmbedding it.embedding))
    (scored.mergeSort (fun a b => decide (b.score ≤ a.score))).take k

/-- `VectorSearch._getAverageEmbedding(items)`: `null` on an empty list, else
the coordinate-wise average over the dimension of the first item, divided by
the square root of its sum of squares when that norm is positive.  Reading a
coordinate beyond an item's own length defaults to `0` (the corpus invariant
gives all embeddings one fixed dimensionality, so the default is never used
on real data). -/
def VectorSearch.getAverageEmbedding (sqrt : ℚ → ℚ) (items : List EmbItem) :
    Option (List ℚ) :=
  match items with
  | [] => none
  | it0 :: _ =>
    let n : ℚ := (items.length : ℚ)
    let avg := (List.range it0.embedding.length).map
      (fun i => (items.foldl (fun acc it => acc + it.embedding.getD i 0) 0) / n)
    let nrm := sqrt (avg.foldl (fun acc x => acc + x * x) 0)
    some (if 0 < nrm then avg.map (fun x => x / nrm) else avg)

/-- `VectorSearch.getQueryEmbedding(query, fuseInstance)`: `null` unless
loaded and a Fuse instance is supplied; with no lexical hits, the average of
the first ten corpus items; otherwise each of the first five hits is looked
up in the embeddings by exact name, and the average of the found items is
returned — falling back to the first-ten average when no name matches. -/
def VectorSearch.getQueryEmbedding (sqrt : ℚ → ℚ) (vs : VS)
    (fuse : Option Fuse) (q : JStr) : Option (List ℚ) :=
  if vs.isLoaded = false then none
  else
    match fuse with
    | none => none
    | some f =>
      let fuseResults := f q
      if fuseResults = [] then
        VectorSearch.getAverageEmbedding sqrt (vs.embeddings.take 10)
      else
        let matchedItems := (fuseResults.take 5).filterMap
          (fun r => vs.embeddings.find? (fun e => e.name == r.itemName))
        if matchedItems = [] then
          VectorSearch.getAverageEmbedding sqrt (vs.embeddings.take 10)
        else
          VectorSearch.getAverageEmbedding sqrt matchedItems

/-- The `result.item` projection built by `VectorSearch.search` from a corpus
item (id, type, name, description, category, url). -/
structure ProjItem where
  id : JStr
  type_ : JStr
  name : JStr
  description : JStr
  category : JStr
  url : JStr
deriving DecidableEq

/-- `projOf`: the field projection used when formatting vector results. -/
def projOf (it : EmbItem) : ProjItem :=
  ⟨it.id, it.type_, it.name, it.description, it.category, it.url⟩

/-- A vector-path result of `VectorSearch.search`, in Fuse.js output format:
`score` is inverted (`1 - similarity`) and `refIndex` is the constant 0. -/
structure VecOut where
  item : ProjItem
  score : ℚ
  refIndex : Nat
deriving DecidableEq

/-- An element of the heterogeneous result list of `VectorSearch.search`:
either a Fuse.js result passed through verbatim (fallback paths) or a
formatted vector result. -/
inductive SearchOut where
  | fuseRes : FuseRes → SearchOut
  | vecOut : VecOut → SearchOut
deriving DecidableEq

/-- `VectorSearch.search(query, fuseInstance, topK)`: with `topK || 20`
applied first; when not loaded (or no query embedding is obtainable) fall
back to the plain Fuse results truncated to `topK` (empty without a Fuse
instance); otherwise run `searchByEmbedding` with `topK * 2`, truncate to
`topK`, and format. -/
def VectorSearch.search (sqrt : ℚ → ℚ) (vs : VS) (fuse : Option Fuse)
    (q : JStr) (topK : Nat) : List SearchOut :=
  let k := if topK = 0 then 20 else topK
  if vs.isLoaded = false then
    match fuse with
    | some f => ((f q).take k).map SearchOut.fuseRes
    | none => []
  else
    match VectorSearch.getQueryEmbedding sqrt vs fuse q with
    | none =>
      match fuse with
      | some f => ((f q).take k).map SearchOut.fuseRes
      | none => []
    | some qe =>
      ((VectorSearch.searchByEmbedding vs qe (k * 2)).take k).map
        (fun r => SearchOut.vecOut ⟨projOf r.item, 1 - r.score, 0⟩)

/-! ### Statements of the claims under scrutiny, and concrete instances -/

/-- The parse of a whitespace-token-only query: no phrases, fields or
negations, lowercased whitespace tokens as terms, and their join as
`cleanQuery`. -/
def pureTermsParsed (q : JStr) : ParsedQuery :=
  ⟨[], [], [], [], (splitWs q).map jsToLower, joinSp ((splitWs q).map jsToLower)⟩

/-- Case-fold every string of a `ParsedQuery` (the "up to case-folding"
comparison of claim C6). -/
def foldParsed (p : ParsedQuery) : ParsedQuery :=
  ⟨p.phrases.map jsToLower,
    p.fields.map (fun fv => (fv.1, fv.2.map jsToLower)),
    p.negTerms.map jsToLower,
    p.negPhrases.map jsToLower,
    p.terms.map jsToLower,
    jsToLower p.cleanQuery⟩

/-- Claim C1 as stated: for a cached embeddings entry (both entries present,
metadata carrying a timestamp), a supplied content hash, and the current
`CACHE_VERSION`, a non-miss implies version match, strict TTL freshness and
hash equality, and any failure of those three conditions yields a miss with
both entries deleted. -/
def c1Claim : Prop :=
  ∀ (now : Int) (st : EmbStore) (ch : JStr) (mw : CacheWrapper EmbMetadata)
    (ew : CacheWrapper (Option EmbValue)) (ts : Int),
    st.metaEntry = some mw → st.embEntry = some ew → mw.timestamp = some ts →
    ((SearchCache.getEmbeddings SearchCache.CACHE_VERSION now st (some ch)).1 ≠
        none →
      mw.version = some SearchCache.CACHE_VERSION ∧
      now - ts < SearchCache.CACHE_TTL ∧ mw.value.contentHash = some ch) ∧
    (¬(mw.version = some SearchCache.CACHE_VERSION ∧
        now - ts < SearchCache.CACHE_TTL ∧ mw.value.contentHash = some ch) →
      (SearchCache.getEmbeddings SearchCache.CACHE_VERSION now st (some ch)).1 =
        none ∧
      (SearchCache.getEmbeddings SearchCache.CACHE_VERSION now st (some ch)).2 =
        ⟨none, none⟩)

/-- A stored metadata wrapper with valid version, fresh timestamp and content
hash `"h1"`. -/
def c1MetaW : CacheWrapper EmbMetadata := ⟨⟨some (str "h1")⟩, some 3, some 100⟩

/-- A stored embeddings wrapper with a present buffer. -/
def c1EmbW : CacheWrapper (Option EmbValue) := ⟨some ⟨some 5, some false⟩, some 3, some 100⟩

/-- A cache state holding both embeddings entries. -/
def c1St : EmbStore := ⟨some c1MetaW, some c1EmbW⟩

/-- Claim C6 as stated: reparsing the clean query yields an equivalent parse
(up to case-folding) for every query. -/
def c6Claim : Prop :=
  ∀ q : JStr,
    foldParsed (QueryParser.parse (QueryParser.parse q).cleanQuery) =
      foldParsed (QueryParser.parse q)

/-- Claim C5 as stated, at a single-token query `f:v` whose field prefix `f`
is unrecognized: the token is not recorded as a field filter and its text
remains among the free terms. -/
def c5Claim : Prop :=
  ∀ (f v : JStr), f ≠ [] → (∀ c ∈ f, jsIsWord c = true) → v ≠ [] →
    (∀ c ∈ v, jsIsWs c = false ∧ c ≠ '"') →
    normalizeFieldName (jsToLower f) = none →
    (QueryParser.parse (f ++ ':' :: v)).fields = [] ∧
    jsToLower (f ++ ':' :: v) ∈ (QueryParser.parse (f ++ ':' :: v)).terms

/-- Claim C7 as stated: a set/get round-trip returns the stored value, and
after a schema-version bump an entry written under the old version is never
returned as a valid cached value on the search-index read path. -/
def c7Claim : Prop :=
  (∀ (st : SearchCache.Store Nat) (k : JStr) (v : Nat),
    SearchCache.get (SearchCache.set st k v) k = some v) ∧
  (∀ (vOld vNew : Int), vOld ≠ vNew →
    ∀ (st : SearchCache.Store Nat) (idx : Nat),
      SearchCache.getSearchIndex (SearchCache.setSearchIndex st idx) ≠ some idx)

/-- The identity function standing in for `Math.sqrt` at concrete instances
(the structural facts checked there do not depend on the square root's
values). -/
def idSqrt : ℚ → ℚ := fun x => x

/-- A corpus item named `"a"` with the one-dimensional embedding `[1]`. -/
def item1 : EmbItem := ⟨str "i", str "package", str "a", [], [], [], [1]⟩

/-- A loaded `VectorSearch` state with the single item `item1`. -/
def vs1 : VS := ⟨[item1], true⟩

/-- A Fuse instance returning one hit named `"a"` for every query. -/
def fuseOne : Fuse := fun _ => [⟨str "a", 0⟩]

/-- A Fuse instance returning one hit named `"zzz"` (a name absent from
`vs1.embeddings`) for every query. -/
def fuseMiss : Fuse := fun _ => [⟨str "zzz", 0⟩]

/-- The query embedding described by claim C2's wording: with at least one
lexical hit, the renormalized average of the stored embeddings of (at most)
the five best hits; with none, the renormalized average of the first ten
corpus items. -/
def specC2QueryEmbedding (sq : ℚ → ℚ) (vs : VS) (f : Fuse) (q : JStr) :
    Option (List ℚ) :=
  if f q = [] then VectorSearch.getAverageEmbedding sq (vs.embeddings.take 10)
  else
    VectorSearch.getAverageEmbedding sq
      ((( f q).take 5).filterMap
        (fun r => vs.embeddings.find? (fun e => e.name == r.itemName)))

/-- Claim C2 as stated: when loaded (and given a Fuse instance), the query
embedding equals the spec-described proxy vector and is never `null`. -/
def c2Claim : Prop :=
  ∀ (sq : ℚ → ℚ) (vs : VS) (f : Fuse) (q : JStr),
    vs.isLoaded = true →
    VectorSearch.getQueryEmbedding sq vs (some f) q =
      specC2QueryEmbedding sq vs f q ∧
    VectorSearch.getQueryEmbedding sq vs (some f) q ≠ none

/-- Claim C3 as stated: with the vector matcher unavailable, `search` returns
exactly the first `topK` lexical results (empty without a lexical index),
for every `topK`. -/
def c3Claim : Prop :=
  ∀ (sq : ℚ → ℚ) (vs : VS) (fuse : Option Fuse) (q : JStr) (topK : Nat),
    vs.isLoaded = false →
    VectorSearch.search sq vs fuse q topK =
      match fuse with
      | some f => ((f q).take topK).map SearchOut.fuseRes
      | none => []

/-- Claim C8 as stated: for every state, query vector and `topK`,
`searchByEmbedding` returns at most `topK` results, ordered by descending
similarity, each scored by the dot product with the stored embedding. -/
def c8Claim : Prop :=
  ∀ (vs : VS) (qe : List ℚ) (topK : Nat),
    (VectorSearch.searchByEmbedding vs qe topK).length ≤ topK ∧
    List.Pairwise (fun a b => b.score ≤ a.score)
      (VectorSearch.searchByEmbedding vs qe topK) ∧
    ∀ r ∈ VectorSearch.searchByEmbedding vs qe topK,
      r.score = VectorSearch.cosineSimilarity qe r.item.embedding ∧
      r.item ∈ vs.embeddings

/-- A document whose description contains the word `deprecated`. -/
def c4Doc : Doc :=
  ⟨str "OldReg", str "A deprecated regression toolkit", str "regression",
    str "Smith", some 2019, [], str "stats", str "package"⟩

/-- A generic sample document. -/
def sampleDoc : Doc :=
  ⟨str "Causal Forests", str "Forest based causal inference", str "causal",
    str "Athey", some 2023, [], str "causal inference", str "package"⟩

/-! ### Theorems -/

theorem SearchCache.get_set {V : Type} (st : SearchCache.Store V) (k : JStr)
    (v : V) : SearchCache.get (SearchCache.set st k v) k = some v := by
  induction st with
  | nil => simp [SearchCache.set, SearchCache.get]
  | cons hd tl ih =>
    obtain ⟨k', v'⟩ := hd
    by_cases hk : k' = k
    · simp [SearchCache.set, SearchCache.get, hk]
    · simp [SearchCache.set, SearchCache.get, hk, ih]

/-- C10: `applyFilters(results, parsedQuery)` returns the input list itself,
unchanged, whenever the parsed query has no phrases, no field filters, and no
negated terms or phrases. -/
theorem applyFilters_id (results : List Doc) (p : ParsedQuery)
    (h1 : p.phrases = []) (h2 : p.fields = []) (h3 : p.negTerms = [])
    (h4 : p.negPhrases = []) :
    QueryParser.applyFilters results p = results := by
  simp [QueryParser.applyFilters, h1, h2, h3, h4]

theorem applyFilters_id_witness :
    QueryParser.applyFilters [sampleDoc, c4Doc]
      (QueryParser.parse (str "causal forests")) = [sampleDoc, c4Doc] :=
  applyFilters_id [sampleDoc, c4Doc] _ (by decide) (by decide) (by decide)
    (by decide)

/-- C9: `parse` is a total function of the query string (so it cannot raise),
and on empty input — the empty string, or anything trimming to it — it
returns the all-empty `ParsedQuery`. -/
theorem parse_empty (q : JStr) (h : jsTrim q = []) :
    QueryParser.parse q = emptyParsedQuery := by
  unfold QueryParser.parse
  split
  · rfl
  · rw [h]; decide

theorem parse_empty_witness :
    QueryParser.parse (str "   ") = emptyParsedQuery :=
  parse_empty (str "   ") (by decide)

/-- C7 counterexample: the search-index path stores and returns raw values
with no version information, so the claim's requirement that a pre-bump entry
is never returned post-bump fails at the bump `2 ≠ 3`, the empty store, and
index value `7`, which *is* returned by `getSearchIndex`. -/
theorem c7_cex : ¬ c7Claim := by
  intro h
  exact h.2 2 3 (by decide) [] 7 (by decide)

/-- C7 amended: `set` then `get` returns the stored value (no version or TTL
check intervenes); the search-index path round-trips the raw index value
regardless of any version bump; only the embeddings read path rejects
entries, and an entry whose wrapper version fails `isValidVersion` (as any
`wrapWithMeta` write under a different, older version does) is a miss with
both embeddings entries deleted. -/
theorem c7_amended :
    (∀ (V : Type) (st : SearchCache.Store V) (k : JStr) (v : V),
      SearchCache.get (SearchCache.set st k v) k = some v) ∧
    (∀ (V : Type) (st : SearchCache.Store V) (idx : V),
      SearchCache.getSearchIndex (SearchCache.setSearchIndex st idx) = some idx) ∧
    (∀ (vOld vNew now0 : Int) (md : EmbMetadata), vOld ≠ vNew →
      SearchCache.isValidVersion vNew
        (SearchCache.wrapWithMeta vOld now0 md) = false) ∧
    (∀ (current now : Int) (st : EmbStore) (ch : Option JStr)
      (mw : CacheWrapper EmbMetadata) (ew : CacheWrapper (Option EmbValue)),
      st.metaEntry = some mw → st.embEntry = some ew →
      SearchCache.isValidVersion current mw = false →
      (SearchCache.getEmbeddings current now st ch).1 = none ∧
      (SearchCache.getEmbeddings current now st ch).2 = ⟨none, none⟩) := by
  refine ⟨fun V st k v => SearchCache.get_set st k v,
    fun V st idx => SearchCache.get_set st _ idx, ?_, ?_⟩
  · intro vOld vNew now0 md hne
    simp [SearchCache.isValidVersion, SearchCache.wrapWithMeta, hne]
  · intro current now st ch mw ew hm he hver
    simp [SearchCache.getEmbeddings, hm, he, hver]

theorem c7_witness :
    (SearchCache.getEmbeddings 3 100
      (SearchCache.setEmbeddings 2 50 ⟨none⟩ 5 false) none).1 = none ∧
    (SearchCache.getEmbeddings 3 100
      (SearchCache.setEmbeddings 2 50 ⟨none⟩ 5 false) none).2 = ⟨none, none⟩ :=
  c7_amended.2.2.2 3 100 _ none (SearchCache.wrapWithMeta 2 50 ⟨none⟩) _ rfl rfl
    (by decide)

/-- C1 counterexample: at a store whose metadata entry has the current
version, a fresh timestamp and content hash `"h1"`, reading with the supplied
hash `"h2"` is a validity failure, so the claim demands deletion of the
entries; the code misses but leaves the store unchanged. -/
theorem c1_cex : ¬ c1Claim := by
  intro h
  have h2 := (h 100 c1St (str "h2") c1MetaW c1EmbW 100 rfl rfl rfl).2 (by decide)
  exact absurd h2.2 (by decide)

/-- C1 amended: `getEmbeddings` returns the stored metadata/buffer/flag only
if the stored version matches, the entry's age does not exceed the TTL
(non-strictly: an entry exactly `CACHE_TTL` old is still served), the
supplied (truthy) content hash matches, and the buffer is present; a version
or TTL failure misses and deletes both entries; a content-hash mismatch (or a
missing buffer) misses but leaves the store unchanged. -/
theorem c1_amended (current now : Int) (st : EmbStore) (ch : Option JStr) :
    (∀ r, (SearchCache.getEmbeddings current now st ch).1 = some r →
      ∃ mw ew ev buf,
        st.metaEntry = some mw ∧ st.embEntry = some ew ∧
        SearchCache.isValidVersion current mw = true ∧
        SearchCache.isExpired now mw = false ∧
        SearchCache.hashMismatch ch mw.value = false ∧
        ew.value = some ev ∧ ev.buffer = some buf ∧
        r = ⟨mw.value, buf, ev.quantized.getD false⟩ ∧
        (SearchCache.getEmbeddings current now st ch).2 = st) ∧
    (∀ mw ew, st.metaEntry = some mw → st.embEntry = some ew →
      (SearchCache.isValidVersion current mw = false ∨
        SearchCache.isExpired now mw = true) →
      (SearchCache.getEmbeddings current now st ch).1 = none ∧
      (SearchCache.getEmbeddings current now st ch).2 = ⟨none, none⟩) ∧
    (∀ mw ew, st.metaEntry = some mw → st.embEntry = some ew →
      SearchCache.isValidVersion current mw = true →
      SearchCache.isExpired now mw = false →
      SearchCache.hashMismatch ch mw.value = true →
      (SearchCache.getEmbeddings current now st ch).1 = none ∧
      (SearchCache.getEmbeddings current now st ch).2 = st) := by
  refine ⟨?_, ?_, ?_⟩
  · intro r hr
    rcases hm : st.metaEntry with _ | mw <;> rcases he : st.embEntry with _ | ew <;>
      simp only [SearchCache.getEmbeddings, hm, he] at hr
    · cases hr
    · cases hr
    · cases hr
    · cases hver1 : SearchCache.isValidVersion current mw with
      | false => simp [hver1] at hr
      | true =>
        cases hexp : SearchCache.isExpired now mw with
        | true => simp [hver1, hexp] at hr
        | false =>
          cases hhash : SearchCache.hashMismatch ch mw.value with
          | true => simp [hver1, hexp, hhash] at hr
          | false =>
            simp only [hver1, hexp, hhash, Bool.not_true, Bool.or_false,
              if_false, Bool.false_eq_true] at hr
            rcases hev : ew.value with _ | ev
            · simp [hev] at hr
            · rcases hbuf : ev.buffer with _ | buf
              · simp [hev, hbuf] at hr
              · simp only [hev, hbuf] at hr
                refine ⟨mw, ew, ev, buf, rfl, rfl, hver1, hexp, hhash, hev, hbuf,
                  ?_, ?_⟩
                · cases hr; rfl
                · simp [SearchCache.getEmbeddings, hm, he, hver1, hexp, hhash,
                    hev, hbuf]
  · intro mw ew hm he hfail
    have hcond : (!SearchCache.isValidVersion current mw ||
        SearchCache.isExpired now mw) = true := by
      rcases hfail with h | h <;> simp [h]
    simp [SearchCache.getEmbeddings, hm, he, hcond]
  · intro mw ew hm he hver hexp hhash
    simp [SearchCache.getEmbeddings, hm, he, hver, hexp, hhash]

theorem c1_witness :
    (SearchCache.getEmbeddings 3 100 c1St (some (str "h2"))).1 = none ∧
    (SearchCache.getEmbeddings 3 100 c1St (some (str "h2"))).2 = c1St :=
  (c1_amended 3 100 c1St (some (str "h2"))).2.2 c1MetaW c1EmbW rfl rfl
    (by decide) (by decide) (by decide)

/-- C3 counterexample: with `topK = 0` the code's `topK || 20` default kicks
in, so an unloaded `search` over a one-hit lexical index returns that hit
instead of the empty prefix of length 0 demanded by the claim. -/
theorem c3_cex : ¬ c3Claim := by
  intro h
  have h0 := h idSqrt ⟨[], false⟩ (some fuseOne) [] 0 rfl
  simp [VectorSearch.search, fuseOne] at h0

/-- C3 amended: when the vector matcher is unavailable, `search` never
raises (it is a total function) and returns exactly the first `topK` lexical
results in lexical rank order — where a zero (or absent) `topK` selects the
default 20 — and the empty list when no lexical index is supplied. -/
theorem c3_amended (sq : ℚ → ℚ) (vs : VS) (fuse : Option Fuse) (q : JStr)
    (topK : Nat) (h : vs.isLoaded = false) :
    VectorSearch.search sq vs fuse q topK =
      match fuse with
      | some f =>
        ((f q).take (if topK = 0 then 20 else topK)).map SearchOut.fuseRes
      | none => [] := by
  simp [VectorSearch.search, h]

theorem c3_witness :
    VectorSearch.search idSqrt ⟨[], false⟩ (some fuseOne) [] 1 =
      ((fuseOne []).take (if 1 = 0 then 20 else 1)).map SearchOut.fuseRes :=
  c3_amended idSqrt ⟨[], false⟩ (some fuseOne) [] 1 rfl

/-- C8 counterexample: at `topK = 0` the `topK || 20` default applies, and a
loaded one-item corpus yields one result, refuting "at most topK results"
at that input. -/
theorem c8_cex : ¬ c8Claim := by
  intro h
  have h0 := (h vs1 [1] 0).1
  simp [VectorSearch.searchByEmbedding, vs1] at h0

/-- C8 amended: for every positive `topK` (zero/absent selects the default
20), `searchByEmbedding` returns at most `topK` results ordered by
non-increasing similarity, where each result's similarity is the dot product
of the query vector with that item's stored embedding. -/
theorem c8_amended (vs : VS) (qe : List ℚ) (topK : Nat) (h : 0 < topK) :
    (VectorSearch.searchByEmbedding vs qe topK).length ≤ topK ∧
    List.Pairwise (fun a b => b.score ≤ a.score)
      (VectorSearch.searchByEmbedding vs qe topK) ∧
    ∀ r ∈ VectorSearch.searchByEmbedding vs qe topK,
      r.score = VectorSearch.cosineSimilarity qe r.item.embedding ∧
      r.item ∈ vs.embeddings := by
  cases hload : vs.isLoaded with
  | false => simp [VectorSearch.searchByEmbedding, hload]
  | true =>
    have hk : (if topK = 0 then 20 else topK) = topK := if_neg (Nat.pos_iff_ne_zero.mp h)
    simp only [VectorSearch.searchByEmbedding, hload, Bool.true_eq_false,
      if_false, hk]
    set L := (vs.embeddings.map
      (fun it => Scored.mk it (VectorSearch.cosineSimilarity qe it.embedding)))
    refine ⟨List.length_take_le topK _, ?_, ?_⟩
    · have hs := @List.sorted_mergeSort Scored
        (fun a b => decide (b.score ≤ a.score))
        (fun a b c hab hbc => by
          simp only [decide_eq_true_eq] at *; exact le_trans hbc hab)
        (fun a b => by simp [le_total]) L
      have hs' : List.Pairwise (fun a b : Scored => b.score ≤ a.score)
          (L.mergeSort (fun a b => decide (b.score ≤ a.score))) :=
        hs.imp (fun hab => by simpa using hab)
      exact hs'.sublist (List.take_sublist _ _)
    · intro r hr
      have hr2 : r ∈ L.mergeSort (fun a b => decide (b.score ≤ a.score)) :=
        List.mem_of_mem_take hr
      rw [List.mem_mergeSort] at hr2
      obtain ⟨it, hit, rfl⟩ := List.mem_map.mp hr2
      exact ⟨rfl, hit⟩

theorem c8_witness :
    (VectorSearch.searchByEmbedding vs1 [1] 1).length ≤ 1 ∧
    List.Pairwise (fun a b => b.score ≤ a.score)
      (VectorSearch.searchByEmbedding vs1 [1] 1) ∧
    ∀ r ∈ VectorSearch.searchByEmbedding vs1 [1] 1,
      r.score = VectorSearch.cosineSimilarity [1] r.item.embedding ∧
      r.item ∈ vs1.embeddings :=
  c8_amended vs1 [1] 1 (by decide)

/-- C2 counterexample: a query with one lexical hit whose name (`"zzz"`)
is absent from the embeddings: the claim's proxy (average of the hits'
stored embeddings) is `null` since no hit has a stored embedding, but the
code falls back to averaging the first ten corpus items and returns a
vector. -/
theorem c2_cex : ¬ c2Claim := by
  intro h
  have h1 := (h idSqrt vs1 fuseMiss [] rfl).1
  have hl : (VectorSearch.getQueryEmbedding idSqrt vs1 (some fuseMiss) []).isSome =
      true := rfl
  rw [h1] at hl
  have hr : specC2QueryEmbedding idSqrt vs1 fuseMiss [] = none := rfl
  rw [hr] at hl
  simp at hl

/-- C2 amended: when loaded and given a Fuse instance, the query embedding is
the renormalized average of the stored embeddings of those of the (at most
five) best lexical hits whose names are found among the embeddings, falling
back to the first ten corpus items when there are no hits or when no hit's
name is found; it is non-null whenever the embeddings list is nonempty. -/
theorem c2_amended (sq : ℚ → ℚ) (vs : VS) (f : Fuse) (q : JStr)
    (h : vs.isLoaded = true) :
    (VectorSearch.getQueryEmbedding sq vs (some f) q =
      (if f q = [] ∨ (((f q).take 5).filterMap
            (fun r => vs.embeddings.find? (fun e => e.name == r.itemName))) = []
        then VectorSearch.getAverageEmbedding sq (vs.embeddings.take 10)
        else VectorSearch.getAverageEmbedding sq
          (((f q).take 5).filterMap
            (fun r => vs.embeddings.find? (fun e => e.name == r.itemName))))) ∧
    (vs.embeddings ≠ [] →
      ∃ w, VectorSearch.getQueryEmbedding sq vs (some f) q = some w) := by
  have havg : ∀ (items : List EmbItem), items ≠ [] →
      ∃ w, VectorSearch.getAverageEmbedding sq items = some w := by
    intro items hne
    cases items with
    | nil => exact absurd rfl hne
    | cons it0 rest => exact ⟨_, rfl⟩
  constructor
  · by_cases h1 : f q = []
    · simp [VectorSearch.getQueryEmbedding, h, h1]
    · by_cases h2 : (((f q).take 5).filterMap
          (fun r => vs.embeddings.find? (fun e => e.name == r.itemName))) = []
      · simp [VectorSearch.getQueryEmbedding, h, h1, h2]
      · simp [VectorSearch.getQueryEmbedding, h, h1, h2]
  · intro hne
    by_cases h1 : f q = []
    · rw [show VectorSearch.getQueryEmbedding sq vs (some f) q =
          VectorSearch.getAverageEmbedding sq (vs.embeddings.take 10) by
        simp [VectorSearch.getQueryEmbedding, h, h1]]
      exact havg _ (by simp [List.take_eq_nil_iff, hne])
    · by_cases h2 : (((f q).take 5).filterMap
          (fun r => vs.embeddings.find? (fun e => e.name == r.itemName))) = []
      · rw [show VectorSearch.getQueryEmbedding sq vs (some f) q =
            VectorSearch.getAverageEmbedding sq (vs.embeddings.take 10) by
          simp [VectorSearch.getQueryEmbedding, h, h1, h2]]
        exact havg _ (by simp [List.take_eq_nil_iff, hne])
      · rw [show VectorSearch.getQueryEmbedding sq vs (some f) q =
            VectorSearch.getAverageEmbedding sq (((f q).take 5).filterMap
              (fun r => vs.embeddings.find? (fun e => e.name == r.itemName))) by
          simp [VectorSearch.getQueryEmbedding, h, h1, h2]]
        exact havg _ h2

theorem c2_witness :
    ∃ w, VectorSearch.getQueryEmbedding idSqrt vs1 (some fuseMiss) [] = some w :=
  (c2_amended idSqrt vs1 fuseMiss [] rfl).2 (by decide)

/-- C4: for a parsed query (whose phrases and negations are case-folded, as
`parse` always produces), `matchesFilters` returns `true` only if every
positive phrase occurs as a case-insensitive substring of the concatenated
searchable text, and returns `false` whenever any negated term or negated
phrase occurs there; in particular the query `-deprecated regression`
excludes every document whose text contains `deprecated`. -/
theorem matchesFilters_phrases_negations (d : Doc) (p : ParsedQuery)
    (hph : ∀ ph ∈ p.phrases, jsToLower ph = ph)
    (hnt : ∀ t ∈ p.negTerms, jsToLower t = t)
    (hnp : ∀ ph ∈ p.negPhrases, jsToLower ph = ph) :
    (QueryParser.matchesFilters d p = true →
      ∀ ph ∈ p.phrases,
        jsIncludes (jsToLower d.searchText) (jsToLower ph) = true) ∧
    ((∃ t ∈ p.negTerms, jsIncludes (jsToLower d.searchText) (jsToLower t) = true) ∨
      (∃ ph ∈ p.negPhrases,
        jsIncludes (jsToLower d.searchText) (jsToLower ph) = true) →
      QueryParser.matchesFilters d p = false) ∧
    (jsIncludes (jsToLower d.searchText) (str "deprecated") = true →
      QueryParser.matchesFilters d
        (QueryParser.parse (str "-deprecated regression")) = false) := by
  refine ⟨?_, ?_, ?_⟩
  · intro h ph hmem
    rw [hph ph hmem]
    simp only [QueryParser.matchesFilters, Bool.and_eq_true, List.all_eq_true]
      at h
    exact h.1.1.2 ph hmem
  · intro hex
    cases hmf : QueryParser.matchesFilters d p with
    | false => rfl
    | true =>
      exfalso
      simp only [QueryParser.matchesFilters, Bool.and_eq_true, List.all_eq_true]
        at hmf
      rcases hex with ⟨t, ht, hinc⟩ | ⟨ph, hp2, hinc⟩
      · rw [hnt t ht] at hinc
        have := hmf.1.2 t ht
        rw [hinc] at this
        exact Bool.noConfusion this
      · rw [hnp ph hp2] at hinc
        have := hmf.2 ph hp2
        rw [hinc] at this
        exact Bool.noConfusion this
  · intro hdep
    have hq : QueryParser.parse (str "-deprecated regression") =
        ⟨[], [], [str "deprecated"], [], [str "regression"],
          str "regression"⟩ := by decide
    rw [hq]
    simp [QueryParser.matchesFilters, hdep]

theorem matchesFilters_phrases_negations_witness :
    QueryParser.matchesFilters c4Doc
      (QueryParser.parse (str "-deprecated regression")) = false :=
  (matchesFilters_phrases_negations c4Doc
      (QueryParser.parse (str "-deprecated regression"))
      (by decide) (by decide) (by decide)).2.2 (by decide)

theorem jsLowerChar_cases (c : Char) :
    jsLowerChar c = c ∨ (c ∈ ucChars ∧ jsLowerChar c ∈ lcChars) := by
  unfold jsLowerChar
  by_cases h : c ∈ ucChars
  · rw [if_pos h]
    refine Or.inr ⟨h, ?_⟩
    fin_cases h <;> decide
  · rw [if_neg h]
    exact Or.inl rfl

theorem jsLowerChar_idem (c : Char) :
    jsLowerChar (jsLowerChar c) = jsLowerChar c := by
  rcases jsLowerChar_cases c with h | ⟨hc, hl⟩
  · rw [h]; exact h
  · have hall : ∀ x ∈ lcChars, jsLowerChar x = x := by decide
    exact hall _ hl

theorem jsLowerChar_ws (c : Char) : jsIsWs (jsLowerChar c) = jsIsWs c := by
  rcases jsLowerChar_cases c with h | ⟨hc, hl⟩
  · rw [h]
  · have h1 : ∀ x ∈ ucChars, jsIsWs x = false := by decide
    have h2 : ∀ x ∈ lcChars, jsIsWs x = false := by decide
    rw [h1 c hc, h2 _ hl]

theorem jsLowerChar_special (c : Char)
    (h : jsLowerChar c = '"' ∨ jsLowerChar c = ':' ∨ jsLowerChar c = '-') :
    c = '"' ∨ c = ':' ∨ c = '-' := by
  rcases jsLowerChar_cases c with he | ⟨hc, hl⟩
  · rwa [he] at h
  · have h2 : ∀ x ∈ lcChars, ¬(x = '"' ∨ x = ':' ∨ x = '-') := by decide
    exact absurd h (h2 _ hl)

theorem jsIsWs_enum (c : Char) (h : jsIsWs c = true) :
    c = ' ' ∨ c = '\t' ∨ c = '\n' ∨ c = '\r' := by
  have h2 := h
  simp only [jsIsWs, Bool.or_eq_true, beq_iff_eq] at h2
  tauto

theorem jsIsWord_not_ws (c : Char) (h : jsIsWord c = true) : jsIsWs c = false := by
  cases hw : jsIsWs c with
  | false => rfl
  | true =>
    rcases jsIsWs_enum c hw with rfl | rfl | rfl | rfl <;>
      exact absurd h (by decide)

theorem jsIsWord_ne_quote (c : Char) (h : jsIsWord c = true) : c ≠ '"' :=
  fun hq => absurd h (by rw [hq]; decide)

theorem jsTrim_subset (s : JStr) : ∀ c ∈ jsTrim s, c ∈ s := by
  intro c hc
  unfold jsTrim at hc
  rw [List.mem_reverse] at hc
  have hc2 := (List.dropWhile_sublist _).mem hc
  rw [List.mem_reverse] at hc2
  exact (List.dropWhile_sublist _).mem hc2

theorem dropWhile_eq_self_of (p : Char → Bool) (s : JStr)
    (h : ∀ c, s.head? = some c → p c = false) : s.dropWhile p = s := by
  cases s with
  | nil => rfl
  | cons c rest => simp [List.dropWhile_cons, h c rfl]

theorem jsTrim_eq_self (s : JStr) (h : ∀ c ∈ s, jsIsWs c = false) :
    jsTrim s = s := by
  unfold jsTrim
  rw [dropWhile_eq_self_of _ s (fun c hc => h c (List.mem_of_mem_head? hc)),
    dropWhile_eq_self_of _ s.reverse
      (fun c hc => h c (List.mem_reverse.mp (List.mem_of_mem_head? hc))),
    List.reverse_reverse]

theorem splitWsAux_tokens (s : JStr) :
    ∀ (cur : JStr), (∀ c ∈ cur, jsIsWs c = false) →
    ∀ t ∈ splitWsAux s cur,
      t ≠ [] ∧ ∀ c ∈ t, jsIsWs c = false ∧ (c ∈ s ∨ c ∈ cur) := by
  induction s with
  | nil =>
    intro cur hcur t ht
    simp only [splitWsAux] at ht
    split at ht
    · cases ht
    · rename_i hne
      rw [List.mem_singleton] at ht
      subst ht
      refine ⟨by simpa using hne, fun c hc => ?_⟩
      rw [List.mem_reverse] at hc
      exact ⟨hcur c hc, Or.inr hc⟩
  | cons a rest ih =>
    intro cur hcur t ht
    simp only [splitWsAux] at ht
    split at ht
    · split at ht
      · obtain ⟨hne, hall⟩ := ih [] (by simp) t ht
        exact ⟨hne, fun c hc =>
          ⟨(hall c hc).1, Or.inl (List.mem_cons_of_mem a ((hall c hc).2.resolve_right (by simp)))⟩⟩
      · rcases List.mem_cons.mp ht with rfl | ht2
        · rename_i hne
          refine ⟨by simpa using hne, fun c hc => ?_⟩
          rw [List.mem_reverse] at hc
          exact ⟨hcur c hc, Or.inr hc⟩
        · obtain ⟨hne, hall⟩ := ih [] (by simp) t ht2
          exact ⟨hne, fun c hc =>
            ⟨(hall c hc).1, Or.inl (List.mem_cons_of_mem a ((hall c hc).2.resolve_right (by simp)))⟩⟩
    · rename_i ha
      have ha' : jsIsWs a = false := by
        cases h : jsIsWs a with
        | false => rfl
        | true => exact absurd h (by simpa using ha)
      obtain ⟨hne, hall⟩ := ih (a :: cur)
        (fun c hc => by
          rcases List.mem_cons.mp hc with rfl | hc2
          · exact ha'
          · exact hcur c hc2) t ht
      refine ⟨hne, fun c hc => ⟨(hall c hc).1, ?_⟩⟩
      rcases (hall c hc).2 with h1 | h2
      · exact Or.inl (List.mem_cons_of_mem a h1)
      · rcases List.mem_cons.mp h2 with rfl | hc3
        · exact Or.inl (List.mem_cons_self _ _)
        · exact Or.inr hc3

theorem splitWs_tokens (s : JStr) :
    ∀ t ∈ splitWs s, t ≠ [] ∧ ∀ c ∈ t, jsIsWs c = false ∧ c ∈ s := by
  intro t ht
  obtain ⟨hne, hall⟩ := splitWsAux_tokens s [] (by simp) t ht
  exact ⟨hne, fun c hc =>
    ⟨(hall c hc).1, (hall c hc).2.resolve_right (by simp)⟩⟩

theorem splitWsAux_token_prefix (t : JStr) (ht : ∀ c ∈ t, jsIsWs c = false) :
    ∀ (s cur : JStr), splitWsAux (t ++ s) cur = splitWsAux s (t.reverse ++ cur) := by
  induction t with
  | nil => intro s cur; simp
  | cons c t' ih =>
    intro s cur
    have hc : jsIsWs c = false := ht c (List.mem_cons_self _ _)
    simp only [List.cons_append, splitWsAux, hc, Bool.false_eq_true, if_false,
      List.append_eq]
    rw [ih (fun x hx => ht x (List.mem_cons_of_mem c hx)) s (c :: cur)]
    simp

theorem splitWsAux_all_ws (w : JStr) (hw : ∀ c ∈ w, jsIsWs c = true) :
    ∀ cur, splitWsAux w cur = if cur = [] then [] else [cur.reverse] := by
  induction w with
  | nil => intro cur; rfl
  | cons c w' ih =>
    intro cur
    have hc : jsIsWs c = true := hw c (List.mem_cons_self _ _)
    have ih' := ih (fun x hx => hw x (List.mem_cons_of_mem c hx))
    simp only [splitWsAux, hc, if_true]
    by_cases hcur : cur = []
    · rw [if_pos hcur, ih' [], if_pos rfl, if_pos hcur]
    · rw [if_neg hcur, ih' [], if_pos rfl, if_neg hcur]

theorem splitWsAux_append_ws (w : JStr) (hw : ∀ c ∈ w, jsIsWs c = true) :
    ∀ (s cur : JStr), splitWsAux (s ++ w) cur = splitWsAux s cur := by
  intro s
  induction s with
  | nil =>
    intro cur
    rw [List.nil_append, splitWsAux_all_ws w hw cur]
    rfl
  | cons a s' ih =>
    intro cur
    simp only [List.cons_append, splitWsAux, List.append_eq]
    by_cases ha : jsIsWs a = true
    · rw [ha]
      simp only [if_true]
      by_cases hcur : cur = []
      · rw [if_pos hcur, if_pos hcur, ih []]
      · rw [if_neg hcur, if_neg hcur, ih []]
    · rw [Bool.not_eq_true] at ha
      rw [ha]
      simp only [Bool.false_eq_true, if_false]
      exact ih (a :: cur)

theorem splitWs_dropWhile_ws (s : JStr) :
    splitWs (s.dropWhile jsIsWs) = splitWs s := by
  induction s with
  | nil => rfl
  | cons a s' ih =>
    by_cases ha : jsIsWs a = true
    · rw [List.dropWhile_cons_of_pos ha]
      rw [ih]
      unfold splitWs
      simp only [splitWsAux, ha, if_true, if_pos rfl]
    · rw [List.dropWhile_cons_of_neg (by simp [ha])]

theorem splitWs_trim (s : JStr) : splitWs (jsTrim s) = splitWs s := by
  have hdecomp : s.dropWhile jsIsWs =
      jsTrim s ++ ((s.dropWhile jsIsWs).reverse.takeWhile jsIsWs).reverse := by
    unfold jsTrim
    rw [← List.reverse_append, List.takeWhile_append_dropWhile,
      List.reverse_reverse]
  have hws : ∀ c ∈ ((s.dropWhile jsIsWs).reverse.takeWhile jsIsWs).reverse,
      jsIsWs c = true := by
    intro c hc
    rw [List.mem_reverse] at hc
    exact List.mem_takeWhile_imp hc
  rw [← splitWs_dropWhile_ws s, hdecomp]
  unfold splitWs
  exact (splitWsAux_append_ws _ hws _ _).symm

theorem joinSp_mem (ts : List JStr) :
    ∀ c ∈ joinSp ts, c = ' ' ∨ ∃ t ∈ ts, c ∈ t := by
  induction ts with
  | nil => intro c hc; cases hc
  | cons t rest ih =>
    intro c hc
    cases rest with
    | nil =>
      exact Or.inr ⟨t, List.mem_singleton.mpr rfl, hc⟩
    | cons t2 rest2 =>
      rw [show joinSp (t :: t2 :: rest2) = t ++ ' ' :: joinSp (t2 :: rest2)
        from rfl] at hc
      rcases List.mem_append.mp hc with h1 | h2
      · exact Or.inr ⟨t, List.mem_cons_self _ _, h1⟩
      · rcases List.mem_cons.mp h2 with rfl | h3
        · exact Or.inl rfl
        · rcases ih c h3 with h4 | ⟨u, hu, hcu⟩
          · exact Or.inl h4
          · exact Or.inr ⟨u, List.mem_cons_of_mem t hu, hcu⟩

theorem splitWs_joinSp (ts : List JStr)
    (hts : ∀ t ∈ ts, t ≠ [] ∧ ∀ c ∈ t, jsIsWs c = false) :
    splitWs (joinSp ts) = ts := by
  induction ts with
  | nil => rfl
  | cons t rest ih =>
    obtain ⟨hne, hfree⟩ := hts t (List.mem_cons_self _ _)
    cases rest with
    | nil =>
      show splitWsAux (joinSp [t]) [] = [t]
      rw [show joinSp [t] = t from rfl, show t = t ++ [] by simp,
        splitWsAux_token_prefix t hfree [] []]
      simp only [splitWsAux, List.append_nil]
      rw [if_neg (by simpa using hne)]
      simp
    | cons t2 rest2 =>
      show splitWsAux (joinSp (t :: t2 :: rest2)) [] = t :: t2 :: rest2
      rw [show joinSp (t :: t2 :: rest2) = t ++ ' ' :: joinSp (t2 :: rest2)
        from rfl, splitWsAux_token_prefix t hfree _ []]
      simp only [splitWsAux, show jsIsWs ' ' = true from rfl, if_true,
        List.append_nil]
      rw [if_neg (by simpa using hne), List.reverse_reverse]
      exact congrArg (t :: ·)
        (ih (fun u hu => hts u (List.mem_cons_of_mem t hu)))

theorem scanFrom_none {β : Type} (f : Nat → Option β) (h : ∀ j, f j = none) :
    ∀ (fuel i : Nat), scanFrom f fuel i = none := by
  intro fuel
  induction fuel with
  | zero => intro i; rfl
  | succ n ih => intro i; simp only [scanFrom, h i]; exact ih (i + 1)

theorem tryPhraseAt_none (s : JStr) (h : '"' ∉ s) (p : Nat) :
    tryPhraseAt s p = none := by
  unfold tryPhraseAt
  split
  · rename_i rest heq
    exact absurd ((List.drop_subset p s) (by rw [heq]; simp)) h
  · rename_i rest heq
    exact absurd ((List.drop_subset p s) (by rw [heq]; simp)) h
  · rfl

theorem tryFieldAt_none (s : JStr) (h : ':' ∉ s) (p : Nat) :
    tryFieldAt s p = none := by
  unfold tryFieldAt
  dsimp only
  split
  · rfl
  · split
    · rename_i rest heq
      have h2 : ':' ∈ (s.drop p).drop ((s.drop p).takeWhile jsIsWord).length := by
        rw [heq]; simp
      exact absurd ((List.drop_subset _ _) ((List.drop_subset _ _) h2)) h
    · rfl

theorem tryNegAt_none (s : JStr) (h : '-' ∉ s) (p : Nat) :
    tryNegAt s p = none := by
  unfold tryNegAt
  split
  · rename_i rest heq
    exact absurd ((List.drop_subset p s) (by rw [heq]; simp)) h
  · rfl

theorem phraseLoop_none (query : JStr) (h : ∀ i, findPhrase query i = none) :
    ∀ (fuel lastIndex : Nat) (remaining : JStr) (phrases negPhrases : List JStr),
      phraseLoop query fuel lastIndex remaining phrases negPhrases =
        (remaining, phrases, negPhrases) := by
  intro fuel lastIndex remaining phrases negPhrases
  cases fuel with
  | zero => rfl
  | succ n => simp only [phraseLoop, h lastIndex]

theorem fieldLoop_none (remaining : JStr) (lastIndex : Nat)
    (h : findField remaining lastIndex = none) :
    ∀ (fuel : Nat) (fields : List (FieldName × List JStr)),
      fieldLoop fuel lastIndex remaining fields = (remaining, fields) := by
  intro fuel fields
  cases fuel with
  | zero => rfl
  | succ n => simp only [fieldLoop, h]

theorem negLoop_none (remaining : JStr) (lastIndex : Nat)
    (h : findNeg remaining lastIndex = none) :
    ∀ (fuel : Nat) (negTerms : List JStr),
      negLoop fuel lastIndex remaining negTerms = (remaining, negTerms) := by
  intro fuel negTerms
  cases fuel with
  | zero => rfl
  | succ n => simp only [negLoop, h]

theorem parse_no_special (q : JStr)
    (h : ∀ c ∈ q, c ≠ '"' ∧ c ≠ ':' ∧ c ≠ '-') :
    QueryParser.parse q = pureTermsParsed q := by
  by_cases hq : q = []
  · subst hq; rfl
  · have htrim : ∀ c ∈ jsTrim q, c ≠ '"' ∧ c ≠ ':' ∧ c ≠ '-' :=
      fun c hc => h c (jsTrim_subset q c hc)
    have hphrase : ∀ i, findPhrase (jsTrim q) i = none := fun i =>
      scanFrom_none _ (tryPhraseAt_none (jsTrim q)
        (fun hmem => (htrim '"' hmem).1 rfl)) _ i
    have hfield : ∀ i, findField (jsTrim q) i = none := fun i =>
      scanFrom_none _ (tryFieldAt_none (jsTrim q)
        (fun hmem => (htrim ':' hmem).2.1 rfl)) _ i
    have hneg : ∀ i, findNeg (jsTrim q) i = none := fun i =>
      scanFrom_none _ (tryNegAt_none (jsTrim q)
        (fun hmem => (htrim '-' hmem).2.2 rfl)) _ i
    unfold QueryParser.parse
    rw [if_neg hq]
    unfold parseBody
    simp only [phraseLoop_none (jsTrim q) hphrase]
    simp only [fieldLoop_none (jsTrim q) 0 (hfield 0)]
    simp only [negLoop_none (jsTrim q) 0 (hneg 0)]
    unfold pureTermsParsed
    rw [splitWs_trim q]
    simp

theorem jsToLower_idem (u : JStr) : jsToLower (jsToLower u) = jsToLower u := by
  unfold jsToLower
  rw [List.map_map]
  exact List.map_congr_left (fun c _ => jsLowerChar_idem c)

/-- C6 counterexample: `cleanQuery` consists of free terms and phrases only,
so reparsing it loses field filters: at `author:smith` the original parse has
the field filter `author = smith` and the reparse (of the empty clean query)
has none. -/
theorem c6_cex : ¬ c6Claim := fun h =>
  absurd (h (str "author:smith")) (by decide)

/-- C6 amended: reparsing the clean query is the identity for queries without
quote, colon, or hyphen characters (pure term queries); in general the clean
query drops field filters, negations, and phrase quoting, so the reparse
loses them. -/
theorem c6_amended (q : JStr)
    (h : ∀ c ∈ q, c ≠ '"' ∧ c ≠ ':' ∧ c ≠ '-') :
    QueryParser.parse (QueryParser.parse q).cleanQuery = QueryParser.parse q := by
  rw [parse_no_special q h]
  show QueryParser.parse (joinSp ((splitWs q).map jsToLower)) = pureTermsParsed q
  set ts := (splitWs q).map jsToLower with hts
  have htok : ∀ t ∈ ts, t ≠ [] ∧ ∀ c ∈ t, jsIsWs c = false := by
    intro t ht
    obtain ⟨u, hu, rfl⟩ := List.mem_map.mp ht
    obtain ⟨hne, hprop⟩ := splitWs_tokens q u hu
    refine ⟨by simpa [jsToLower] using hne, ?_⟩
    intro c hc
    obtain ⟨d, hd, rfl⟩ := List.mem_map.mp hc
    rw [jsLowerChar_ws d]
    exact (hprop d hd).1
  have hclean : ∀ c ∈ joinSp ts, c ≠ '"' ∧ c ≠ ':' ∧ c ≠ '-' := by
    intro c hc
    rcases joinSp_mem ts c hc with rfl | ⟨t, ht, hct⟩
    · exact ⟨by decide, by decide, by decide⟩
    · obtain ⟨u, hu, rfl⟩ := List.mem_map.mp ht
      obtain ⟨d, hd, rfl⟩ := List.mem_map.mp hct
      have hdq : d ∈ q := ((splitWs_tokens q u hu).2 d hd).2
      have hd_ns := h d hdq
      have hnd : ¬(jsLowerChar d = '"' ∨ jsLowerChar d = ':' ∨
          jsLowerChar d = '-') := by
        intro hsp
        rcases jsLowerChar_special d hsp with h1 | h1 | h1
        · exact hd_ns.1 h1
        · exact hd_ns.2.1 h1
        · exact hd_ns.2.2 h1
      exact ⟨fun he => hnd (Or.inl he), fun he => hnd (Or.inr (Or.inl he)),
        fun he => hnd (Or.inr (Or.inr he))⟩
  rw [parse_no_special (joinSp ts) hclean]
  unfold pureTermsParsed
  rw [splitWs_joinSp ts htok]
  have hmap : ts.map jsToLower = ts := by
    rw [hts, List.map_map]
    exact List.map_congr_left (fun u _ => jsToLower_idem u)
  rw [hmap]

theorem c6_witness :
    QueryParser.parse (QueryParser.parse (str "Hello   World")).cleanQuery =
      QueryParser.parse (str "Hello   World") :=
  c6_amended (str "Hello   World") (by decide)

theorem takeWhile_all {p : Char → Bool} (v : JStr) (h : ∀ c ∈ v, p c = true) :
    v.takeWhile p = v := by
  induction v with
  | nil => rfl
  | cons c rest ih =>
    rw [List.takeWhile_cons_of_pos (h c (List.mem_cons_self _ _))]
    exact congrArg (c :: ·) (ih (fun x hx => h x (List.mem_cons_of_mem c hx)))

theorem takeWhile_all_append {p : Char → Bool} (l : JStr) (c : Char) (r : JStr)
    (hl : ∀ x ∈ l, p x = true) (hc : p c = false) :
    (l ++ c :: r).takeWhile p = l := by
  induction l with
  | nil =>
    rw [List.nil_append]
    exact @List.takeWhile_cons_of_neg Char p c r (by simp [hc])
  | cons a l' ih =>
    rw [List.cons_append,
      List.takeWhile_cons_of_pos (hl a (List.mem_cons_self _ _))]
    exact congrArg (a :: ·) (ih (fun x hx => hl x (List.mem_cons_of_mem a hx)))

theorem replaceFirst_self (s r : JStr) : replaceFirst s s r = r := by
  cases s with
  | nil => rfl
  | cons c rest =>
    unfold replaceFirst
    rw [if_pos (List.isPrefixOf_iff_prefix.mpr List.prefix_rfl)]
    simp

/-- C5 counterexample: the claim at the single unrecognized-prefix token
`foo:bar` requires the token text to remain among the free terms; the code
consumes the match unconditionally, so the parse of `foo:bar` has empty
`terms` (and empty `cleanQuery`). -/
theorem c5_cex : ¬ c5Claim := by
  intro h
  have h1 := h (str "foo") (str "bar") (by decide) (by decide) (by decide)
    (by decide) (by decide)
  exact absurd h1.2 (by decide)

/-- C5 amended: a token `f:v` with an unrecognized field prefix is not
recorded as a field filter, but it does not remain as ordinary text either:
the field-extraction loop blanks out every `field:value` match whether or not
the prefix is recognized, so parsing the single token yields the all-empty
structure. -/
theorem c5_amended (f v : JStr) (hf : f ≠ [])
    (hfw : ∀ c ∈ f, jsIsWord c = true) (hv : v ≠ [])
    (hvw : ∀ c ∈ v, jsIsWs c = false ∧ c ≠ '"')
    (hn : normalizeFieldName (jsToLower f) = none) :
    QueryParser.parse (f ++ ':' :: v) = emptyParsedQuery := by
  have hqne : f ++ ':' :: v ≠ [] := by
    cases f with
    | nil => exact absurd rfl hf
    | cons a f' => simp
  have hnws : ∀ c ∈ f ++ ':' :: v, jsIsWs c = false := by
    intro c hc
    rcases List.mem_append.mp hc with h1 | h2
    · exact jsIsWord_not_ws c (hfw c h1)
    · rcases List.mem_cons.mp h2 with rfl | h3
      · decide
      · exact (hvw c h3).1
  have hnq : '"' ∉ f ++ ':' :: v := by
    intro hc
    rcases List.mem_append.mp hc with h1 | h2
    · exact jsIsWord_ne_quote '"' (hfw '"' h1) rfl
    · rcases List.mem_cons.mp h2 with h3 | h3
      · exact absurd h3 (by decide)
      · exact (hvw '"' h3).2 rfl
  have htrimq : jsTrim (f ++ ':' :: v) = f ++ ':' :: v :=
    jsTrim_eq_self _ hnws
  have hphrase : ∀ i, findPhrase (f ++ ':' :: v) i = none := fun i =>
    scanFrom_none _ (tryPhraseAt_none _ hnq) _ i
  have hvtake : v.takeWhile (fun c => jsIsWs c = false) = v :=
    takeWhile_all v (fun c hc => by simp [(hvw c hc).1])
  have htake : (f ++ ':' :: v).takeWhile jsIsWord = f :=
    takeWhile_all_append f ':' v hfw (by decide)
  have htry : tryFieldAt (f ++ ':' :: v) 0 =
      some ⟨f, v, f ++ ':' :: v, 0 + f.length + 1 + v.length⟩ := by
    simp only [tryFieldAt, List.drop_zero, htake, List.drop_left, hvtake,
      if_neg hf, if_neg hv]
  have hff : findField (f ++ ':' :: v) 0 =
      some ⟨f, v, f ++ ':' :: v, 0 + f.length + 1 + v.length⟩ := by
    unfold findField
    rw [Nat.sub_zero]
    simp only [scanFrom, htry]
  have hfl : fieldLoop ((f ++ ':' :: v).length + 1) 0 (f ++ ':' :: v) [] =
      ([' '], []) := by
    simp only [fieldLoop, hff, hn]
    rw [replaceFirst_self]
    exact fieldLoop_none [' '] _ (scanFrom_none _
      (tryFieldAt_none [' '] (by decide)) _ _) _ _
  unfold QueryParser.parse
  rw [if_neg hqne, htrimq]
  unfold parseBody
  simp only [phraseLoop_none (f ++ ':' :: v) hphrase]
  simp only [hfl]
  simp only [negLoop_none [' '] 0 (scanFrom_none _
    (tryNegAt_none [' '] (by decide)) _ _)]
  decide

theorem c5_witness :
    QueryParser.parse (str "foo" ++ ':' :: str "bar") = emptyParsedQuery :=
  c5_amended (str "foo") (str "bar") (by decide) (by decide) (by decide)
    (by decide) (by decide)

theorem phraseLoop_lowered (query : JStr) :
    ∀ (fuel li : Nat) (rem : JStr) (ph np : List JStr),
      (∀ x ∈ ph, jsToLower x = x) → (∀ x ∈ np, jsToLower x = x) →
      (∀ x ∈ (phraseLoop query fuel li rem ph np).2.1, jsToLower x = x) ∧
      (∀ x ∈ (phraseLoop query fuel li rem ph np).2.2, jsToLower x = x) := by
  intro fuel
  induction fuel with
  | zero => intro li rem ph np hph hnp; exact ⟨hph, hnp⟩
  | succ n ih =>
    intro li rem ph np hph hnp
    simp only [phraseLoop]
    cases hfind : findPhrase query li with
    | none => exact ⟨hph, hnp⟩
    | some m =>
      apply ih
      · intro x hx
        split at hx
        · rcases List.mem_append.mp hx with h1 | h2
          · exact hph x h1
          · rw [List.mem_singleton.mp h2]
            exact jsToLower_idem _
        · exact hph x hx
      · intro x hx
        split at hx
        · rcases List.mem_append.mp hx with h1 | h2
          · exact hnp x h1
          · rw [List.mem_singleton.mp h2]
            exact jsToLower_idem _
        · exact hnp x hx

theorem negLoop_lowered :
    ∀ (fuel li : Nat) (rem : JStr) (nt : List JStr),
      (∀ x ∈ nt, jsToLower x = x) →
      ∀ x ∈ (negLoop fuel li rem nt).2, jsToLower x = x := by
  intro fuel
  induction fuel with
  | zero => intro li rem nt hnt; exact hnt
  | succ n ih =>
    intro li rem nt hnt
    simp only [negLoop]
    cases hfind : findNeg rem li with
    | none => exact hnt
    | some m =>
      apply ih
      intro x hx
      split at hx
      · rcases List.mem_append.mp hx with h1 | h2
        · exact hnt x h1
        · rw [List.mem_singleton.mp h2]
          exact jsToLower_idem _
      · exact hnt x hx

/-- Every `ParsedQuery` produced by `parse` has case-folded phrases, negated
terms and negated phrases — so the case-foldedness hypotheses of the claim
about `matchesFilters` hold for every really parsed query. -/
theorem parse_lowered (q : JStr) :
    (∀ ph ∈ (QueryParser.parse q).phrases, jsToLower ph = ph) ∧
    (∀ t ∈ (QueryParser.parse q).negTerms, jsToLower t = t) ∧
    (∀ ph ∈ (QueryParser.parse q).negPhrases, jsToLower ph = ph) := by
  unfold QueryParser.parse
  split
  · refine ⟨?_, ?_, ?_⟩ <;> (intro x hx; simp [emptyParsedQuery] at hx)
  · unfold parseBody
    refine ⟨?_, ?_, ?_⟩
    · intro ph h
      exact (phraseLoop_lowered (jsTrim q) _ 0 (jsTrim q) [] []
        (fun x hx => by cases hx) (fun x hx => by cases hx)).1 ph h
    · intro t h
      exact negLoop_lowered _ 0 _ [] (fun x hx => by cases hx) t h
    · intro ph h
      exact (phraseLoop_lowered (jsTrim q) _ 0 (jsTrim q) [] []
        (fun x hx => by cases hx) (fun x hx => by cases hx)).2 ph h
